import Mathlib

/-!
Verification of the image-player core of `Adafruit_Video_Looper/image_player.py`:
an LRU image cache bounded by a byte-size limit, plus the scale/center placement
and loop/duration timing logic of the `ImagePlayer` class.

Modelling conventions:
* A pygame surface is modelled by its observable attributes used by the player:
  `get_size()` (width, height) and `get_bytesize()` (bytes per pixel).
* The `OrderedDict` cache is modelled as an association list whose head is the
  least-recently-used end (`popitem(last=False)` pops the head) and whose tail
  is the most-recently-used end (insertion appends at the tail).
* Python ints are modelled as `Int`/`Nat`; the float results of `monotonic()`
  and of true division are modelled as exact rationals `ℚ`; `int(x)` on the
  nonnegative values arising here is `Int.floor`, and Python's flooring
  integer division `//` is `Int.fdiv`.
* The unguarded `while` loop of `_add_to_cache` is embedded fuel-style
  (`evictLoopFuel`); `addToCache` returns `none` exactly when the source loop
  never exits (shown below: once the cache is empty, `_evict_cache` is a no-op,
  so a still-true guard stays true forever).
-/

/-- A decoded pygame surface: the attributes the player reads.
`get_size()` returns `(width, height)`, `get_bytesize()` the bytes per pixel. -/
structure PyImage where
  width : Nat
  height : Nat
  bytesize : Nat
deriving DecidableEq, Repr

/-- `_get_image_size`: estimated memory size of a surface,
`width * height * depth` bytes. -/
def getImageSize (pyimage : PyImage) : Nat :=
  pyimage.width * pyimage.height * pyimage.bytesize

/-- The cache-related state of `ImagePlayer`: `_image_cache` (an `OrderedDict`,
head = LRU end, tail = MRU end), `_current_cache_size`, `_cache_size_limit`. -/
structure CacheState where
  entries : List (String × PyImage)
  currentSize : Int
  capacity : Int
deriving DecidableEq, Repr

/-- `_evict_cache`: if the cache is nonempty, pop the LRU-end item and subtract
its estimated size from the running total; on an empty cache, do nothing. -/
def evictCache (s : CacheState) : CacheState :=
  match s.entries with
  | [] => s
  | (_, evicted) :: rest =>
      { s with entries := rest,
               currentSize := s.currentSize - getImageSize evicted }

/-- The body of the `while self._current_cache_size + image_size >
self._cache_size_limit: self._evict_cache()` loop of `_add_to_cache`, iterated
with explicit fuel: each step re-tests the guard and, if it holds, evicts once. -/
def evictLoopFuel (imageSize : Int) (s : CacheState) : Nat → CacheState
  | 0 => s
  | fuel + 1 =>
      if s.currentSize + imageSize > s.capacity then
        evictLoopFuel imageSize (evictCache s) fuel
      else
        s

/-- `_add_to_cache`: evict until the new image fits, then append it at the MRU
end and add its size. Returns `none` exactly when the source's `while` loop
never terminates: with fuel `entries.length` the loop either reaches a state
where the guard fails (the state the source loop exits in) or empties the
cache with the guard still true, after which `_evict_cache` no longer changes
anything and the source loop runs forever. -/
def addToCache (imagePath : String) (pyimage : PyImage) (s : CacheState) :
    Option CacheState :=
  let imageSize : Int := getImageSize pyimage
  let s2 := evictLoopFuel imageSize s s.entries.length
  if s2.currentSize + imageSize > s2.capacity then
    none
  else
    some { s2 with entries := s2.entries ++ [(imagePath, pyimage)],
                   currentSize := s2.currentSize + imageSize }

/-- `image_path in self._image_cache` together with the cached value:
first entry with the given key. -/
def lookupEntry (imagePath : String) : List (String × PyImage) → Option PyImage
  | [] => none
  | (k, v) :: rest => if k = imagePath then some v else lookupEntry imagePath rest

/-- `self._image_cache.pop(image_path)`: remove the entry with the given key
(keys are unique in a dict, so removing the first occurrence is faithful). -/
def removeKey (imagePath : String) : List (String × PyImage) → List (String × PyImage)
  | [] => []
  | (k, v) :: rest => if k = imagePath then rest else (k, v) :: removeKey imagePath rest

/-- `_load_image`: on a hit, pop the entry and re-insert it at the MRU end and
return it; on a miss, decode from disk and `_add_to_cache`. The returned `Nat`
counts decoder invocations made by this call (`pygame.image.load`), and the
decoder itself is a parameter returning `none` on a decode failure. `none`
overall means the call does not complete normally (decode error propagates, or
the `_add_to_cache` loop diverges). -/
def loadImage (decoder : String → Option PyImage) (imagePath : String)
    (s : CacheState) : Option (PyImage × CacheState × Nat) :=
  match lookupEntry imagePath s.entries with
  | some pyimage =>
      some (pyimage,
            { s with entries := removeKey imagePath s.entries ++ [(imagePath, pyimage)] },
            0)
  | none =>
      match decoder imagePath with
      | none => none
      | some pyimage => (addToCache imagePath pyimage s).map fun s2 => (pyimage, s2, 1)

/-- A cache operation: a `_load_image` call or a bare `_evict_cache` call. -/
inductive CacheOp where
  | load : String → CacheOp
  | evictOne : CacheOp
deriving DecidableEq, Repr

/-- Run a sequence of cache operations; `none` as soon as one call fails to
complete (decode error or divergent eviction loop). -/
def runOps (decoder : String → Option PyImage) : List CacheOp → CacheState → Option CacheState
  | [], s => some s
  | CacheOp.load p :: rest, s =>
      match loadImage decoder p s with
      | none => none
      | some (_, s2, _) => runOps decoder rest s2
  | CacheOp.evictOne :: rest, s => runOps decoder rest (evictCache s)

/-- Sum of the estimated sizes of all cached entries. -/
def cacheSizeSum (entries : List (String × PyImage)) : Int :=
  entries.foldr (fun e acc => (getImageSize e.2 : Int) + acc) 0

/-- The cache-state invariant of the spec: the running size total equals the
sum of entry sizes, and the capacity bound holds except for a single admitted
oversized entry. -/
def cacheInvariant (s : CacheState) : Prop :=
  s.currentSize = cacheSizeSum s.entries ∧
    (s.currentSize ≤ s.capacity ∨
      (s.entries.length = 1 ∧ ∃ e ∈ s.entries, s.capacity < (getImageSize e.2 : Int)))

instance (s : CacheState) : Decidable (cacheInvariant s) := by
  unfold cacheInvariant
  infer_instance

/-- The configuration fields `_load_config` reads, plus the screen size. -/
structure PlayerConfig where
  duration : Int
  waitTime : Int
  scale : Bool
  center : Bool
  screenW : Nat
  screenH : Nat
deriving DecidableEq, Repr

/-- The mutable player state: `_loop`, `_start_time`, and the cache. -/
structure PlayerState where
  loop : Int
  startTime : ℚ
  cache : CacheState
deriving DecidableEq, Repr

/-- The image descriptor handed to `play`: `filename` and `repeats`. -/
structure ImageDescriptor where
  filename : String
  repeats : Int
deriving DecidableEq, Repr

/-- The loop-count resolution at the top of `play`: take `loop` when supplied,
else the descriptor's `repeats`; then rewrite an exact `0` to `1`. -/
def resolveLoop (loopArg : Option Int) (image : ImageDescriptor) : Int :=
  let l := loopArg.getD image.repeats
  if l = 0 then 1 else l

/-- The destination rectangle computed by `play`: offsets `(image_x, image_y)`
and the drawn surface's size `(new_image_w, new_image_h)`. -/
structure Frame where
  x : Int
  y : Int
  w : Nat
  h : Nat
deriving DecidableEq, Repr

/-- The placement arithmetic of `play` (lines 98-122 of the source): aspect
ratios are true divisions (modelled as exact rationals), `int(...)` on the
nonnegative scaled dimensions is the floor, and the centering block re-derives
the width- or height-bound branch from the same aspect comparison. -/
def placeImage (cfg : PlayerConfig) (imageW imageH : Nat) : Frame :=
  let screenAspect : ℚ := (cfg.screenW : ℚ) / (cfg.screenH : ℚ)
  let photoAspect : ℚ := (imageW : ℚ) / (imageH : ℚ)
  let wh : Nat × Nat :=
    if cfg.scale then
      if screenAspect < photoAspect then
        (cfg.screenW, (⌊(cfg.screenW : ℚ) / photoAspect⌋).toNat)
      else if screenAspect > photoAspect then
        ((⌊(cfg.screenH : ℚ) * photoAspect⌋).toNat, cfg.screenH)
      else
        (cfg.screenW, cfg.screenH)
    else
      (imageW, imageH)
  let y : Int :=
    if cfg.center ∧ screenAspect < photoAspect then
      Int.fdiv ((cfg.screenH : Int) - (wh.2 : Int)) 2
    else 0
  let x : Int :=
    if cfg.center ∧ screenAspect > photoAspect then
      Int.fdiv ((cfg.screenW : Int) - (wh.1 : Int)) 2
    else 0
  ⟨x, y, wh.1, wh.2⟩

/-- A drawing command issued by `play`: the background fill of
`_blank_screen(False)`, or the blit of the image at its destination rectangle. -/
inductive DrawCmd where
  | fillBackground : DrawCmd
  | blit : Frame → DrawCmd
deriving DecidableEq, Repr

/-- `play`: resolve the loop count, and when the filename is nonempty and the
file exists (`os.path.isfile`, modelled by the predicate `isfile`), draw the
image via the cache and the placement arithmetic; in every case record the
current monotonic time (`now`) as `_start_time`. Returns the updated state and
the drawing commands issued, or `none` when `_load_image` does not complete. -/
def play (cfg : PlayerConfig) (isfile : String → Bool)
    (decoder : String → Option PyImage) (image : ImageDescriptor)
    (loopArg : Option Int) (now : ℚ) (s : PlayerState) :
    Option (PlayerState × List DrawCmd) :=
  let loop := resolveLoop loopArg image
  let imagePath := image.filename
  if imagePath ≠ "" ∧ isfile imagePath then
    match loadImage decoder imagePath s.cache with
    | none => none
    | some (pyimage, cache2, _) =>
        let frame := placeImage cfg pyimage.width pyimage.height
        some ({ loop := loop, startTime := now, cache := cache2 },
              [DrawCmd.fillBackground, DrawCmd.blit frame])
  else
    some ({ loop := loop, startTime := now, cache := s.cache }, [])

/-- The value returned by `is_playing` at monotonic time `now`: always true for
the infinite sentinel `_loop <= -1`, else true while the elapsed time is below
`_duration * _loop`. -/
def isPlaying (cfg : PlayerConfig) (s : PlayerState) (now : ℚ) : Bool :=
  if s.loop ≤ -1 then
    true
  else
    decide (now - s.startTime < ((cfg.duration * s.loop : Int) : ℚ))

/-- `stop`: blank the screen and rewind `_start_time` by `_duration * _loop`;
`_loop` itself is left unchanged. -/
def stop (cfg : PlayerConfig) (s : PlayerState) : PlayerState :=
  { s with startTime := s.startTime - ((cfg.duration * s.loop : Int) : ℚ) }

/-- `N` successive `_load_image` calls for the same path, returning the list of
images handed back and the total number of decoder invocations. -/
def repeatedLoadImage (decoder : String → Option PyImage) (imagePath : String) :
    Nat → CacheState → Option (List PyImage × CacheState × Nat)
  | 0, s => some ([], s, 0)
  | n + 1, s =>
      match loadImage decoder imagePath s with
      | none => none
      | some (pyimage, s1, c) =>
          match repeatedLoadImage decoder imagePath n s1 with
          | none => none
          | some (images, s2, c2) => some (pyimage :: images, s2, c + c2)

/-- The keys of the cache are pairwise distinct, as they are in a Python
`OrderedDict`. -/
def keysNodup (entries : List (String × PyImage)) : Prop :=
  (entries.map Prod.fst).Nodup

instance (entries : List (String × PyImage)) : Decidable (keysNodup entries) := by
  unfold keysNodup
  infer_instance

/-! ### Basic lemmas about the cache operations -/

theorem evictCache_capacity (s : CacheState) : (evictCache s).capacity = s.capacity := by
  unfold evictCache
  cases s.entries with
  | nil => rfl
  | cons e rest => rfl

theorem evictLoopFuel_capacity (sz : Int) (fuel : Nat) (s : CacheState) :
    (evictLoopFuel sz s fuel).capacity = s.capacity := by
  induction fuel generalizing s with
  | zero => rfl
  | succ n ih =>
      unfold evictLoopFuel
      split
      · rw [ih, evictCache_capacity]
      · rfl

theorem evictCache_sum (s : CacheState)
    (h : s.currentSize = cacheSizeSum s.entries) :
    (evictCache s).currentSize = cacheSizeSum (evictCache s).entries := by
  unfold evictCache
  cases hs : s.entries with
  | nil => simpa using h
  | cons e rest =>
      obtain ⟨k, v⟩ := e
      rw [hs] at h
      simp only [cacheSizeSum, List.foldr] at h ⊢
      omega

theorem evictLoopFuel_sum (sz : Int) (fuel : Nat) (s : CacheState)
    (h : s.currentSize = cacheSizeSum s.entries) :
    (evictLoopFuel sz s fuel).currentSize
      = cacheSizeSum (evictLoopFuel sz s fuel).entries := by
  induction fuel generalizing s with
  | zero => exact h
  | succ n ih =>
      unfold evictLoopFuel
      split
      · exact ih (evictCache s) (evictCache_sum s h)
      · exact h

/-- After running the eviction loop with fuel equal to the number of entries,
either the loop guard has failed (the loop has exited) or the cache is empty. -/
theorem evictLoopFuel_exit (sz : Int) (fuel : Nat) (s : CacheState)
    (hfuel : s.entries.length ≤ fuel) :
    (evictLoopFuel sz s fuel).currentSize + sz ≤ (evictLoopFuel sz s fuel).capacity
      ∨ (evictLoopFuel sz s fuel).entries = [] := by
  induction fuel generalizing s with
  | zero =>
      right
      simpa [evictLoopFuel] using List.length_eq_zero.mp (Nat.le_zero.mp hfuel)
  | succ n ih =>
      unfold evictLoopFuel
      split
      · refine ih (evictCache s) ?_
        unfold evictCache
        cases hs : s.entries with
        | nil => simp [hs]
        | cons e rest =>
            obtain ⟨k, v⟩ := e
            rw [hs] at hfuel
            simp only [List.length_cons] at hfuel ⊢
            omega
      · left
        omega

theorem cacheSizeSum_append (l1 l2 : List (String × PyImage)) :
    cacheSizeSum (l1 ++ l2) = cacheSizeSum l1 + cacheSizeSum l2 := by
  unfold cacheSizeSum
  rw [List.foldr_append]
  induction l1 with
  | nil => simp
  | cons e rest ih =>
      simp only [List.foldr] at ih ⊢
      omega

/-- C1: on a cache miss with an image whose size alone exceeds the capacity,
the eviction loop of `_add_to_cache` never terminates: starting from the empty
cache with capacity 100 bytes and a new 8×8×2 image (128 bytes), the loop body
leaves the state unchanged after any number of iterations while the loop guard
`current_size + image_size > capacity` keeps holding, so `_add_to_cache` never
returns and the oversized image is never admitted. This refutes the claimed
guarded loop (stop when the cache is empty) and admit-oversized insertion. -/
theorem addToCache_oversized_diverges :
    (∀ fuel : Nat,
        evictLoopFuel 128 ⟨[], 0, 100⟩ fuel = ⟨[], 0, 100⟩ ∧
          (evictLoopFuel 128 ⟨[], 0, 100⟩ fuel).currentSize + 128
            > (evictLoopFuel 128 ⟨[], 0, 100⟩ fuel).capacity) ∧
      addToCache "new.png" ⟨8, 8, 2⟩ ⟨[], 0, 100⟩ = none ∧
      (getImageSize ⟨8, 8, 2⟩ : Int) = 128 := by
  have hfix : ∀ fuel : Nat, evictLoopFuel 128 ⟨[], 0, 100⟩ fuel = ⟨[], 0, 100⟩ := by
    intro fuel
    induction fuel with
    | zero => rfl
    | succ n ih =>
        unfold evictLoopFuel
        rw [if_pos (by norm_num)]
        exact ih
  refine ⟨fun fuel => ⟨hfix fuel, ?_⟩, by rfl, by decide⟩
  rw [hfix fuel]
  norm_num

/-- A completed `_add_to_cache` call preserves the size-accounting equation,
reestablishes the capacity bound, and leaves the capacity itself unchanged. -/
theorem addToCache_some_invariant (p : String) (img : PyImage) (s s2 : CacheState)
    (hsum : s.currentSize = cacheSizeSum s.entries)
    (h : addToCache p img s = some s2) :
    s2.currentSize = cacheSizeSum s2.entries ∧ s2.currentSize ≤ s2.capacity ∧
      s2.capacity = s.capacity := by
  simp only [addToCache] at h
  split at h
  · cases h
  · rename_i hguard
    simp only [Option.some.injEq] at h
    subst h
    have hsum1 := evictLoopFuel_sum (getImageSize img : Int) s.entries.length s hsum
    have hcap1 := evictLoopFuel_capacity (getImageSize img : Int) s.entries.length s
    have hsingle : cacheSizeSum [(p, img)] = (getImageSize img : Int) := by
      simp [cacheSizeSum]
    refine ⟨?_, ?_, hcap1⟩
    · dsimp only
      rw [cacheSizeSum_append, hsingle]
      omega
    · dsimp only
      omega

theorem evictCache_invariant (s : CacheState) (hcap : 0 ≤ s.capacity)
    (h : cacheInvariant s) : cacheInvariant (evictCache s) := by
  obtain ⟨hsum, hbound⟩ := h
  refine ⟨evictCache_sum s hsum, Or.inl ?_⟩
  cases hs : s.entries with
  | nil =>
      have he : evictCache s = s := by
        unfold evictCache
        rw [hs]
      rw [he]
      rw [hs] at hsum
      simp only [cacheSizeSum, List.foldr] at hsum
      omega
  | cons e rest =>
      obtain ⟨k, v⟩ := e
      have he : evictCache s
          = { s with entries := rest,
                     currentSize := s.currentSize - getImageSize v } := by
        unfold evictCache
        rw [hs]
      rw [he]
      dsimp only
      rw [hs] at hsum
      simp only [cacheSizeSum, List.foldr] at hsum
      rcases hbound with hb | ⟨hlen, w, hw, hover⟩
      · have h0 : (0 : Int) ≤ (getImageSize v : Int) := Int.natCast_nonneg _
        omega
      · rw [hs] at hlen hw
        simp only [List.length_cons] at hlen
        have hrest : rest = [] := List.length_eq_zero.mp (by omega)
        subst hrest
        simp only [List.mem_singleton] at hw
        subst hw
        simp only [List.foldr] at hsum
        omega

/-- On a hit, the looked-up entry accounts for its size in the total:
removing it removes exactly its estimated size. -/
theorem lookupEntry_sum (p : String) (l : List (String × PyImage)) (v : PyImage)
    (h : lookupEntry p l = some v) :
    cacheSizeSum l = (getImageSize v : Int) + cacheSizeSum (removeKey p l) := by
  induction l with
  | nil => cases h
  | cons e rest ih =>
      obtain ⟨k, w⟩ := e
      by_cases hk : k = p
      · simp only [lookupEntry, if_pos hk, Option.some.injEq] at h
        subst h
        simp [removeKey, if_pos hk, cacheSizeSum, List.foldr]
      · simp only [lookupEntry, if_neg hk] at h
        simp only [removeKey, if_neg hk, cacheSizeSum, List.foldr] at ih ⊢
        have := ih h
        omega

/-- A one-entry cache in which `p` is found consists exactly of that entry. -/
theorem lookupEntry_length_one (p : String) (l : List (String × PyImage))
    (v : PyImage) (h : lookupEntry p l = some v) (hlen : l.length = 1) :
    l = [(p, v)] := by
  cases l with
  | nil => cases h
  | cons e rest =>
      obtain ⟨k, w⟩ := e
      simp only [List.length_cons] at hlen
      have hrest : rest = [] := List.length_eq_zero.mp (by omega)
      subst hrest
      by_cases hk : k = p
      · simp only [lookupEntry, if_pos hk, Option.some.injEq] at h
        rw [hk, h]
      · simp only [lookupEntry, if_neg hk] at h
        cases h

/-- A completed `_load_image` call preserves the cache-state invariant and the
capacity. -/
theorem loadImage_some_invariant (d : String → Option PyImage) (p : String)
    (s : CacheState) (img : PyImage) (s2 : CacheState) (n : Nat)
    (hcap : 0 ≤ s.capacity) (h : cacheInvariant s)
    (hl : loadImage d p s = some (img, s2, n)) :
    cacheInvariant s2 ∧ s2.capacity = s.capacity := by
  obtain ⟨hsum, hbound⟩ := h
  unfold loadImage at hl
  cases hlook : lookupEntry p s.entries with
  | some v =>
      simp only [hlook, Option.some.injEq, Prod.mk.injEq] at hl
      obtain ⟨hv, hs2, -⟩ := hl
      subst hv
      subst hs2
      have hsum2 : cacheSizeSum (removeKey p s.entries ++ [(p, v)])
          = cacheSizeSum s.entries := by
        rw [cacheSizeSum_append, lookupEntry_sum p s.entries v hlook]
        simp only [cacheSizeSum, List.foldr]
        omega
      refine ⟨⟨by dsimp only; rw [hsum2]; exact hsum, ?_⟩, rfl⟩
      rcases hbound with hb | ⟨hlen, w, hw, hover⟩
      · exact Or.inl hb
      · have hone := lookupEntry_length_one p s.entries v hlook hlen
        right
        rw [hone] at hw ⊢
        simp only [List.mem_singleton] at hw
        subst hw
        simp [removeKey, hover]
  | none =>
      simp only [hlook] at hl
      cases hd : d p with
      | none =>
          simp only [hd] at hl
          exact Option.noConfusion hl
      | some img0 =>
          simp only [hd] at hl
          cases ha : addToCache p img0 s with
          | none =>
              simp [ha] at hl
          | some s3 =>
              simp only [ha, Option.map] at hl
              simp only [Option.some.injEq, Prod.mk.injEq] at hl
              obtain ⟨hv, hs2, -⟩ := hl
              subst hv
              subst hs2
              obtain ⟨h1, h2, h3⟩ := addToCache_some_invariant p img0 s s3 hsum ha
              exact ⟨⟨h1, Or.inl h2⟩, h3⟩

/-- Any completed sequence of `_load_image` and `_evict_cache` calls preserves
the cache-state invariant and the capacity. -/
theorem runOps_some_invariant (d : String → Option PyImage) (ops : List CacheOp) :
    ∀ s s2 : CacheState, 0 ≤ s.capacity → cacheInvariant s →
      runOps d ops s = some s2 → cacheInvariant s2 ∧ s2.capacity = s.capacity := by
  induction ops with
  | nil =>
      intro s s2 hcap hinv h
      simp only [runOps, Option.some.injEq] at h
      subst h
      exact ⟨hinv, rfl⟩
  | cons op rest ih =>
      intro s s2 hcap hinv h
      cases op with
      | load p =>
          simp only [runOps] at h
          cases hl : loadImage d p s with
          | none => rw [hl] at h; cases h
          | some r =>
              obtain ⟨img, s1, n⟩ := r
              rw [hl] at h
              obtain ⟨hinv1, hcap1⟩ := loadImage_some_invariant d p s img s1 n hcap hinv hl
              obtain ⟨hi, hc⟩ := ih s1 s2 (hcap1 ▸ hcap) hinv1 h
              exact ⟨hi, by omega⟩
      | evictOne =>
          simp only [runOps] at h
          have hinv1 := evictCache_invariant s hcap hinv
          have hcap1 := evictCache_capacity s
          obtain ⟨hi, hc⟩ := ih (evictCache s) s2 (hcap1 ▸ hcap) hinv1 h
          exact ⟨hi, by omega⟩

/-- C2: for every sequence of `_load_image` (get-or-load) and `_evict_cache`
calls that all complete, the cache-state invariant holds afterwards:
`_current_cache_size` equals the sum of the estimated sizes
(width × height × bytes-per-pixel) of the cached entries, and it is at most
`_cache_size_limit` unless a single entry of oversize is cached alone. (In the
code the oversized disjunct is in fact never exercised, because an oversized
insertion never completes — see the C1 divergence.) -/
theorem runOps_cacheInvariant (d : String → Option PyImage) (ops : List CacheOp)
    (s s2 : CacheState) (hcap : 0 ≤ s.capacity) (hinv : cacheInvariant s)
    (h : runOps d ops s = some s2) : cacheInvariant s2 :=
  (runOps_some_invariant d ops s s2 hcap hinv h).1

/-- Witness for C2 at a concrete input: loading a 100-byte image into an empty
200-byte cache completes and the invariant holds afterwards. -/
theorem runOps_cacheInvariant_witness :
    cacheInvariant ⟨[("A", ⟨10, 10, 1⟩)], 100, 200⟩ :=
  runOps_cacheInvariant (fun _ => some ⟨10, 10, 1⟩) [CacheOp.load "A"]
    ⟨[], 0, 200⟩ ⟨[("A", ⟨10, 10, 1⟩)], 100, 200⟩ (by decide) (by decide) (by rfl)

/-- The decoder used in the concrete LRU scenario: every path decodes to the
same 10×10×1 surface, i.e. all three images have the same 100-byte size. -/
def sameSizeDecoder : String → Option PyImage := fun _ => some ⟨10, 10, 1⟩

theorem lookupEntry_eq_none_of_not_mem (p : String) (l : List (String × PyImage))
    (h : p ∉ l.map Prod.fst) : lookupEntry p l = none := by
  induction l with
  | nil => rfl
  | cons e rest ih =>
      obtain ⟨k, v⟩ := e
      simp only [List.map_cons, List.mem_cons] at h
      push_neg at h
      have hk : ¬(k = p) := fun hk => h.1 hk.symm
      simp only [lookupEntry, if_neg hk]
      exact ih h.2

theorem lookupEntry_append_of_left_none (p : String) (l1 l2 : List (String × PyImage))
    (h : lookupEntry p l1 = none) :
    lookupEntry p (l1 ++ l2) = lookupEntry p l2 := by
  induction l1 with
  | nil => rfl
  | cons e rest ih =>
      obtain ⟨k, v⟩ := e
      by_cases hk : k = p
      · simp only [lookupEntry, if_pos hk] at h
        cases h
      · simp only [lookupEntry, if_neg hk] at h
        simp only [List.cons_append, lookupEntry, if_neg hk]
        exact ih h

/-- With distinct keys, removing `p` removes every occurrence of `p`. -/
theorem not_mem_keys_removeKey (p : String) (l : List (String × PyImage))
    (hnd : keysNodup l) : p ∉ (removeKey p l).map Prod.fst := by
  induction l with
  | nil => simp [removeKey]
  | cons e rest ih =>
      obtain ⟨k, v⟩ := e
      simp only [keysNodup, List.map_cons, List.nodup_cons] at hnd
      by_cases hk : k = p
      · simp only [removeKey, if_pos hk]
        rw [← hk]
        exact hnd.1
      · simp only [removeKey, if_neg hk, List.map_cons, List.mem_cons]
        push_neg
        exact ⟨fun hp => hk hp.symm, ih hnd.2⟩

/-- The keys remaining after `removeKey` are a sublist of the original keys. -/
theorem keys_removeKey_sublist (p : String) (l : List (String × PyImage)) :
    ((removeKey p l).map Prod.fst).Sublist (l.map Prod.fst) := by
  induction l with
  | nil => simp [removeKey]
  | cons e rest ih =>
      obtain ⟨k, v⟩ := e
      by_cases hk : k = p
      · simp only [removeKey, if_pos hk, List.map_cons]
        exact List.sublist_cons_of_sublist k (List.Sublist.refl _)
      · simp only [removeKey, if_neg hk, List.map_cons]
        exact List.Sublist.cons₂ k ih

theorem keysNodup_removeKey (p : String) (l : List (String × PyImage))
    (hnd : keysNodup l) : keysNodup (removeKey p l) :=
  List.Nodup.sublist (keys_removeKey_sublist p l) hnd

/-- A hit's reinsertion at the MRU end keeps the keys distinct. -/
theorem keysNodup_promote (p : String) (l : List (String × PyImage)) (v : PyImage)
    (hnd : keysNodup l) : keysNodup (removeKey p l ++ [(p, v)]) := by
  have h1 : keysNodup (removeKey p l) := keysNodup_removeKey p l hnd
  have h2 : p ∉ (removeKey p l).map Prod.fst := not_mem_keys_removeKey p l hnd
  unfold keysNodup at h1 ⊢
  rw [List.map_append, List.nodup_append]
  refine ⟨h1, by simp, ?_⟩
  intro a ha hb
  simp only [List.map_cons, List.map_nil, List.mem_singleton] at hb
  exact h2 (hb ▸ ha)

/-- After a hit promotes `p` to the MRU end, looking `p` up still yields the
same image. -/
theorem lookupEntry_promote (p : String) (l : List (String × PyImage)) (v : PyImage)
    (hnd : keysNodup l) :
    lookupEntry p (removeKey p l ++ [(p, v)]) = some v := by
  rw [lookupEntry_append_of_left_none p _ _
    (lookupEntry_eq_none_of_not_mem p _ (not_mem_keys_removeKey p l hnd))]
  simp [lookupEntry]

/-- A `_load_image` hit returns the cached image with no decoder call and only
promotes the entry to the MRU end. -/
theorem loadImage_hit_eq (d : String → Option PyImage) (p : String)
    (s : CacheState) (v : PyImage) (h : lookupEntry p s.entries = some v) :
    loadImage d p s
      = some (v, { s with entries := removeKey p s.entries ++ [(p, v)] }, 0) := by
  unfold loadImage
  rw [h]

/-- Iterating `_load_image` on a cached path: every call is a hit that returns
the same image, makes no decoder call, and preserves the size accounting. -/
theorem repeatedLoadImage_hits (d : String → Option PyImage) (p : String) :
    ∀ (N : Nat) (s : CacheState) (v : PyImage), keysNodup s.entries →
      lookupEntry p s.entries = some v →
      ∃ s2 : CacheState,
        repeatedLoadImage d p N s = some (List.replicate N v, s2, 0) ∧
          keysNodup s2.entries ∧ lookupEntry p s2.entries = some v ∧
          s2.currentSize = s.currentSize ∧ s2.capacity = s.capacity := by
  intro N
  induction N with
  | zero =>
      intro s v hnd h
      exact ⟨s, rfl, hnd, h, rfl, rfl⟩
  | succ n ih =>
      intro s v hnd h
      obtain ⟨s2, hrun, hnd2, h2, hsz, hcap⟩ :=
        ih { s with entries := removeKey p s.entries ++ [(p, v)] } v
          (keysNodup_promote p s.entries v hnd)
          (lookupEntry_promote p s.entries v hnd)
      refine ⟨s2, ?_, hnd2, h2, hsz, hcap⟩
      unfold repeatedLoadImage
      rw [loadImage_hit_eq d p s v h]
      dsimp only
      rw [hrun]
      simp [List.replicate_succ]

/-- C6: for a path already present in the cache, each of `N` repeated
`_load_image` calls is a hit: it returns the same cached bitmap, performs no
decoder invocation or I/O (the per-call and total decoder call counts are 0,
whatever the decoder would do), and only promotes the entry to the MRU end of
the order; the size accounting is untouched. -/
theorem loadImage_idempotent_hit (d : String → Option PyImage) (p : String)
    (s : CacheState) (v : PyImage) (hnd : keysNodup s.entries)
    (h : lookupEntry p s.entries = some v) :
    loadImage d p s
        = some (v, { s with entries := removeKey p s.entries ++ [(p, v)] }, 0) ∧
      ∀ N : Nat, ∃ s2 : CacheState,
        repeatedLoadImage d p N s = some (List.replicate N v, s2, 0) ∧
          lookupEntry p s2.entries = some v ∧ s2.currentSize = s.currentSize :=
  ⟨loadImage_hit_eq d p s v h, fun N => by
    obtain ⟨s2, hrun, -, h2, hsz, -⟩ := repeatedLoadImage_hits d p N s v hnd h
    exact ⟨s2, hrun, h2, hsz⟩⟩

/-- Witness for C6 at a concrete cache: a hit on the sole cached entry returns
it unchanged (promotion is the identity here) with a decoder call count of 0,
even though the ambient decoder fails on every path. -/
theorem loadImage_idempotent_hit_witness :
    loadImage (fun _ => none) "a" ⟨[("a", ⟨10, 10, 1⟩)], 100, 200⟩
      = some (⟨10, 10, 1⟩, ⟨[("a", ⟨10, 10, 1⟩)], 100, 200⟩, 0) := by
  have h := (loadImage_idempotent_hit (fun _ => none) "a"
    ⟨[("a", ⟨10, 10, 1⟩)], 100, 200⟩ ⟨10, 10, 1⟩ (by decide) (by rfl)).1
  exact h

/-- C3: eviction order is strict recency. With capacity 200 bytes fitting
exactly two of three 100-byte images, loading A, B, A again (a promoting hit),
then C evicts B — not A — leaving A and C cached (A at the LRU end, C at the
MRU end) with the size total back at the capacity. -/
theorem lru_evicts_least_recent :
    runOps sameSizeDecoder
        [CacheOp.load "A", CacheOp.load "B", CacheOp.load "A", CacheOp.load "C"]
        ⟨[], 0, 200⟩
      = some ⟨[("A", ⟨10, 10, 1⟩), ("C", ⟨10, 10, 1⟩)], 200, 200⟩ := by
  rfl

/-! ### Timing, loop resolution and the skip branch of `play` -/

/-- A concrete configuration used in the concrete instances below:
5-second duration, no inter-image wait, scaling and centering on, 800×600. -/
def cfgEx : PlayerConfig := ⟨5, 0, true, true, 800, 600⟩

/-- An empty cache with the default 64 MiB limit. -/
def emptyCache : CacheState := ⟨[], 0, 67108864⟩

/-- C4 counterexample: with the infinite sentinel `_loop = -1`, `stop` only
rewinds `_start_time` while `is_playing` still short-circuits on
`self._loop <= -1`, so an `is_playing` call made immediately after `stop`
returns true, not false as claimed. -/
theorem isPlaying_after_stop_cex :
    isPlaying cfgEx (stop cfgEx ⟨-1, 0, emptyCache⟩) 0 = true := by
  rfl

/-- C4 (amended): after `stop`, an immediate `is_playing` call returns false
for every non-negative loop count (at any query time not earlier than the
recorded start time); for the infinite sentinel `_loop <= -1`, `is_playing`
keeps returning true even after `stop`, because `stop` only rewinds
`_start_time` and never clears the sentinel. -/
theorem isPlaying_after_stop (cfg : PlayerConfig) (s : PlayerState) (now : ℚ) :
    (0 ≤ s.loop → s.startTime ≤ now → isPlaying cfg (stop cfg s) now = false) ∧
      (s.loop ≤ -1 → isPlaying cfg (stop cfg s) now = true) := by
  constructor
  · intro h0 h1
    unfold isPlaying stop
    dsimp only
    rw [if_neg (by omega)]
    simp only [decide_eq_false_iff_not, not_lt]
    have heq : now - (s.startTime - ((cfg.duration * s.loop : Int) : ℚ))
        = (now - s.startTime) + ((cfg.duration * s.loop : Int) : ℚ) := by
      ring
    rw [heq]
    linarith
  · intro h
    unfold isPlaying stop
    dsimp only
    rw [if_pos (by omega)]

/-- Witness for C4 (amended) at concrete inputs: loop count 2 gives false after
`stop`; loop count -1 still gives true. -/
theorem isPlaying_after_stop_witness :
    isPlaying cfgEx (stop cfgEx ⟨2, 0, emptyCache⟩) 0 = false ∧
      isPlaying cfgEx (stop cfgEx ⟨-1, 0, emptyCache⟩) 0 = true :=
  ⟨(isPlaying_after_stop cfgEx ⟨2, 0, emptyCache⟩ 0).1 (by decide) (le_refl 0),
   (isPlaying_after_stop cfgEx ⟨-1, 0, emptyCache⟩ 0).2 (by decide)⟩

/-- C8: the loop count `play` stores: the explicit `loop` argument when given,
else the descriptor's `repeats`; a resolved value of exactly 0 is normalized
to 1 (the stored count is never 0), and resolved values ≤ -1 (the infinite
sentinel) are kept unchanged. -/
theorem resolveLoop_spec (loopArg : Option Int) (image : ImageDescriptor) :
    (loopArg.getD image.repeats = 0 → resolveLoop loopArg image = 1) ∧
      (loopArg.getD image.repeats ≤ -1 →
        resolveLoop loopArg image = loopArg.getD image.repeats) ∧
      resolveLoop loopArg image ≠ 0 := by
  simp only [resolveLoop]
  refine ⟨fun h => by rw [if_pos h], fun h => by rw [if_neg (by omega)], ?_⟩
  split
  · decide
  · rename_i h
    exact h

/-- Witness for C8 at concrete inputs: an explicit loop argument of 0 resolves
to 1, and an explicit -2 is kept. -/
theorem resolveLoop_spec_witness :
    resolveLoop (some 0) ⟨"x.png", 7⟩ = 1 ∧ resolveLoop (some (-2)) ⟨"x.png", 7⟩ = -2 :=
  ⟨(resolveLoop_spec (some 0) ⟨"x.png", 7⟩).1 (by decide),
   (resolveLoop_spec (some (-2)) ⟨"x.png", 7⟩).2.1 (by decide)⟩

/-- The skip branch of `play`: when the filename is empty or the file does not
exist, `play` issues no drawing command, raises nothing, and only stores the
resolved loop count and the current time. -/
theorem play_skip (cfg : PlayerConfig) (isfile : String → Bool)
    (decoder : String → Option PyImage) (image : ImageDescriptor)
    (loopArg : Option Int) (now : ℚ) (s : PlayerState)
    (h : image.filename = "" ∨ isfile image.filename = false) :
    play cfg isfile decoder image loopArg now s
      = some ({ loop := resolveLoop loopArg image, startTime := now,
                cache := s.cache }, []) := by
  have hc : ¬(image.filename ≠ "" ∧ isfile image.filename) := by
    rcases h with h | h
    · intro hcon
      exact hcon.1 h
    · intro hcon
      rw [h] at hcon
      exact Bool.false_ne_true hcon.2
  unfold play
  rw [if_neg hc]

/-- C9: for an image descriptor whose filename is empty or names no existing
file, `play` draws nothing at all (no background fill, no blit — the issued
command list is empty) and completes without raising any error, whatever the
decoder would have done. -/
theorem play_missing_source_noop (cfg : PlayerConfig) (isfile : String → Bool)
    (decoder : String → Option PyImage) (image : ImageDescriptor)
    (loopArg : Option Int) (now : ℚ) (s : PlayerState)
    (h : image.filename = "" ∨ isfile image.filename = false) :
    play cfg isfile decoder image loopArg now s
      = some ({ loop := resolveLoop loopArg image, startTime := now,
                cache := s.cache }, []) :=
  play_skip cfg isfile decoder image loopArg now s h

/-- Witness for C9 at a concrete input: a nonexistent file with a decoder that
fails on every path still gives a completed, draw-free `play` call. -/
theorem play_missing_source_noop_witness :
    play cfgEx (fun _ => false) (fun _ => none) ⟨"ghost.png", 2⟩ none 0
        ⟨0, 0, emptyCache⟩
      = some (⟨2, 0, emptyCache⟩, []) :=
  play_missing_source_noop cfgEx (fun _ => false) (fun _ => none) ⟨"ghost.png", 2⟩
    none 0 ⟨0, 0, emptyCache⟩ (Or.inr rfl)

/-- C10: even on the skip branch (empty or missing file), `play` still stores
the resolved loop count, sets `_start_time` to the current monotonic time and
leaves the cache untouched; `is_playing` afterwards therefore reports the
blank frame as playing exactly while the elapsed time is below
`_duration * _loop` (or forever for the infinite sentinel). -/
theorem play_skip_effects (cfg : PlayerConfig) (isfile : String → Bool)
    (decoder : String → Option PyImage) (image : ImageDescriptor)
    (loopArg : Option Int) (now : ℚ) (s : PlayerState)
    (h : image.filename = "" ∨ isfile image.filename = false) :
    play cfg isfile decoder image loopArg now s
        = some ({ loop := resolveLoop loopArg image, startTime := now,
                  cache := s.cache }, []) ∧
      ∀ t : ℚ, isPlaying cfg ⟨resolveLoop loopArg image, now, s.cache⟩ t = true ↔
        (resolveLoop loopArg image ≤ -1 ∨
          t - now < ((cfg.duration * resolveLoop loopArg image : Int) : ℚ)) := by
  refine ⟨play_skip cfg isfile decoder image loopArg now s h, fun t => ?_⟩
  unfold isPlaying
  dsimp only
  by_cases hloop : resolveLoop loopArg image ≤ -1
  · rw [if_pos hloop]
    simp [hloop]
  · rw [if_neg hloop]
    simp [hloop, decide_eq_true_iff]

/-- Witness for C10 at a concrete input: `play` on an empty filename stores
loop count 1 (repeats 0 normalized) and start time 3, keeps the cache, and
one second later the blank frame still counts as playing. -/
theorem play_skip_effects_witness :
    play cfgEx (fun _ => true) (fun _ => none) ⟨"", 0⟩ none 3 ⟨5, 7, emptyCache⟩
        = some (⟨1, 3, emptyCache⟩, []) ∧
      isPlaying cfgEx ⟨1, 3, emptyCache⟩ 4 = true := by
  have h := play_skip_effects cfgEx (fun _ => true) (fun _ => none) ⟨"", 0⟩ none 3
    ⟨5, 7, emptyCache⟩ (Or.inl rfl)
  have h1 : resolveLoop none (⟨"", 0⟩ : ImageDescriptor) = 1 := rfl
  refine ⟨h.1, (h.2 4).mpr (Or.inr ?_)⟩
  rw [h1]
  norm_num [cfgEx]

/-! ### Placement: aspect comparisons and the scale/center arithmetic -/

/-- The aspect-ratio comparison of `play` as an integer cross-multiplication
(exact for the real-valued ratios the floats approximate). -/
theorem screenAspect_lt_iff (W H w h : Nat) (hH : 0 < H) (hh : 0 < h) :
    ((W : ℚ) / (H : ℚ) < (w : ℚ) / (h : ℚ)) ↔ W * h < w * H := by
  rw [div_lt_div_iff₀ (by exact_mod_cast hH) (by exact_mod_cast hh)]
  exact_mod_cast Iff.rfl

theorem screenAspect_eq_iff (W H w h : Nat) (hH : 0 < H) (hh : 0 < h) :
    ((W : ℚ) / (H : ℚ) = (w : ℚ) / (h : ℚ)) ↔ W * h = w * H := by
  rw [div_eq_div_iff (by positivity) (by positivity)]
  exact_mod_cast Iff.rfl

/-- `int(new_image_w / photo_aspect_ratio)` for `new_image_w = screen_w` is the
integer division `screen_w * image_h / image_w`. -/
theorem floor_width_scale (W w h : Nat) :
    (⌊(W : ℚ) / ((w : ℚ) / (h : ℚ))⌋).toNat = W * h / w := by
  have heq : (W : ℚ) / ((w : ℚ) / (h : ℚ)) = (((W * h : Nat) : ℚ)) / ((w : Nat) : ℚ) := by
    push_cast
    rw [div_div_eq_mul_div]
  rw [heq, Int.floor_toNat, Nat.floor_div_eq_div]

/-- `int(new_image_h * photo_aspect_ratio)` for `new_image_h = screen_h` is the
integer division `screen_h * image_w / image_h`. -/
theorem floor_height_scale (H w h : Nat) :
    (⌊(H : ℚ) * ((w : ℚ) / (h : ℚ))⌋).toNat = H * w / h := by
  have heq : (H : ℚ) * ((w : ℚ) / (h : ℚ)) = (((H * w : Nat) : ℚ)) / ((h : Nat) : ℚ) := by
    push_cast
    ring
  rw [heq, Int.floor_toNat, Nat.floor_div_eq_div]

/-- The width-bound branch of `play` with scaling on: the image is scaled to
the full screen width with proportional (floored) height, and centering can
offset it only vertically. -/
theorem placeImage_widthBound (cfg : PlayerConfig) (w h : Nat) (hs : cfg.scale = true)
    (hH : 0 < cfg.screenH) (hh : 0 < h)
    (hlt : cfg.screenW * h < w * cfg.screenH) :
    placeImage cfg w h =
      ⟨0,
       if cfg.center then
         ((cfg.screenH : Int) - ((cfg.screenW * h / w : Nat) : Int)).fdiv 2
       else 0,
       cfg.screenW, cfg.screenW * h / w⟩ := by
  have hq : (cfg.screenW : ℚ) / (cfg.screenH : ℚ) < (w : ℚ) / (h : ℚ) :=
    (screenAspect_lt_iff cfg.screenW cfg.screenH w h hH hh).mpr hlt
  have hng : ¬((w : ℚ) / (h : ℚ) < (cfg.screenW : ℚ) / (cfg.screenH : ℚ)) := lt_asymm hq
  have hfl : (⌊(cfg.screenW : ℚ) / ((w : ℚ) / (h : ℚ))⌋).toNat = cfg.screenW * h / w :=
    floor_width_scale cfg.screenW w h
  simp only [placeImage, hs, if_true, gt_iff_lt, if_pos hq, hq, hng, and_true, and_false,
    if_false]
  rw [hfl]

/-- The height-bound branch of `play` with scaling on: the image is scaled to
the full screen height with proportional (floored) width, and centering can
offset it only horizontally. -/
theorem placeImage_heightBound (cfg : PlayerConfig) (w h : Nat) (hs : cfg.scale = true)
    (hH : 0 < cfg.screenH) (hh : 0 < h)
    (hgt : w * cfg.screenH < cfg.screenW * h) :
    placeImage cfg w h =
      ⟨if cfg.center then
         ((cfg.screenW : Int) - ((cfg.screenH * w / h : Nat) : Int)).fdiv 2
       else 0,
       0, cfg.screenH * w / h, cfg.screenH⟩ := by
  have hq : (w : ℚ) / (h : ℚ) < (cfg.screenW : ℚ) / (cfg.screenH : ℚ) :=
    (screenAspect_lt_iff w h cfg.screenW cfg.screenH hh hH).mpr hgt
  have hng : ¬((cfg.screenW : ℚ) / (cfg.screenH : ℚ) < (w : ℚ) / (h : ℚ)) := lt_asymm hq
  have hfl : (⌊(cfg.screenH : ℚ) * ((w : ℚ) / (h : ℚ))⌋).toNat = cfg.screenH * w / h :=
    floor_height_scale cfg.screenH w h
  simp only [placeImage, hs, if_true, gt_iff_lt, if_neg hng, if_pos hq, hq, hng, and_true,
    and_false, if_false]
  rw [hfl]

/-- The equal-aspect branch of `play` with scaling on: the image is stretched
to exactly the full screen with no offset. -/
theorem placeImage_equalAspect (cfg : PlayerConfig) (w h : Nat) (hs : cfg.scale = true)
    (hH : 0 < cfg.screenH) (hh : 0 < h)
    (heq : cfg.screenW * h = w * cfg.screenH) :
    placeImage cfg w h = ⟨0, 0, cfg.screenW, cfg.screenH⟩ := by
  have hq : (cfg.screenW : ℚ) / (cfg.screenH : ℚ) = (w : ℚ) / (h : ℚ) :=
    (screenAspect_eq_iff cfg.screenW cfg.screenH w h hH hh).mpr heq
  have hng1 : ¬((cfg.screenW : ℚ) / (cfg.screenH : ℚ) < (w : ℚ) / (h : ℚ)) := by
    rw [hq]
    exact lt_irrefl _
  have hng2 : ¬((w : ℚ) / (h : ℚ) < (cfg.screenW : ℚ) / (cfg.screenH : ℚ)) := by
    rw [hq]
    exact lt_irrefl _
  simp only [placeImage, hs, if_true, gt_iff_lt, if_neg hng1, if_neg hng2, hng1, hng2,
    and_false, if_false]

/-- C7: with scaling enabled, the three aspect cases of `play`: when the screen
aspect is below the image aspect (cross-multiplied: `screen_w * image_h <
image_w * screen_h`), the image is scaled to the full screen width with
proportionally floored height `screen_w * image_h / image_w` (e.g. 800×600
screen, 1000×500 image → 800×400); when the screen aspect is above, to the
full screen height with width `screen_h * image_w / image_h` (400×800 image →
300×600); and at equal aspects it is stretched to exactly the screen size. -/
theorem placeImage_scale_cases (cfg : PlayerConfig) (w h : Nat)
    (hs : cfg.scale = true) (hH : 0 < cfg.screenH) (hh : 0 < h) :
    (cfg.screenW * h < w * cfg.screenH →
        (placeImage cfg w h).w = cfg.screenW ∧
          (placeImage cfg w h).h = cfg.screenW * h / w) ∧
      (w * cfg.screenH < cfg.screenW * h →
        (placeImage cfg w h).h = cfg.screenH ∧
          (placeImage cfg w h).w = cfg.screenH * w / h) ∧
      (cfg.screenW * h = w * cfg.screenH →
        (placeImage cfg w h).w = cfg.screenW ∧
          (placeImage cfg w h).h = cfg.screenH) := by
  refine ⟨fun hlt => ?_, fun hgt => ?_, fun heq => ?_⟩
  · rw [placeImage_widthBound cfg w h hs hH hh hlt]
    exact ⟨rfl, rfl⟩
  · rw [placeImage_heightBound cfg w h hs hH hh hgt]
    exact ⟨rfl, rfl⟩
  · rw [placeImage_equalAspect cfg w h hs hH hh heq]
    exact ⟨rfl, rfl⟩

/-- Witness for C7 at the spec's two concrete examples: on the 800×600 screen,
a 1000×500 image scales to 800×400 (width-bound) and a 400×800 image scales to
300×600 (height-bound). -/
theorem placeImage_scale_cases_witness :
    ((placeImage cfgEx 1000 500).w = 800 ∧ (placeImage cfgEx 1000 500).h = 400) ∧
      ((placeImage cfgEx 400 800).w = 300 ∧ (placeImage cfgEx 400 800).h = 600) := by
  have h1 := (placeImage_scale_cases cfgEx 1000 500 rfl (by decide) (by decide)).1
    (by decide)
  have h2 := (placeImage_scale_cases cfgEx 400 800 rfl (by decide) (by decide)).2.1
    (by decide)
  exact ⟨⟨h1.1, h1.2.trans (by norm_num [cfgEx])⟩,
         ⟨h2.2.trans (by norm_num [cfgEx]), h2.1⟩⟩

/-- A configuration with scaling and centering both disabled. -/
def cfgNoScale : PlayerConfig := ⟨5, 0, false, false, 800, 600⟩

/-- C5 counterexample: with scaling disabled, `play` blits the image at its
original size, so a 1000×500 image on an 800×600 screen is drawn at (0, 0)
with width 1000 and is clipped at the right screen edge — the claimed
"never crops for every combination of the scale and center flags" is false. -/
theorem placeImage_crops_cex :
    placeImage cfgNoScale 1000 500 = ⟨0, 0, 1000, 500⟩ ∧
      ¬((placeImage cfgNoScale 1000 500).x
          + ((placeImage cfgNoScale 1000 500).w : Int) ≤ (cfgNoScale.screenW : Int)) :=
  ⟨rfl, by decide⟩

/-- C5 (amended): when scaling is enabled (for positive screen and image
dimensions), the frame drawn by `play` never crops or clips: both destination
offsets are nonnegative and each offset plus the drawn dimension is at most
the corresponding screen dimension. (When scaling is disabled, an image larger
than the screen is clipped — see the counterexample.) -/
theorem placeImage_no_crop (cfg : PlayerConfig) (w h : Nat) (hs : cfg.scale = true)
    (hW : 0 < cfg.screenW) (hH : 0 < cfg.screenH) (hw : 0 < w) (hh : 0 < h) :
    0 ≤ (placeImage cfg w h).x ∧ 0 ≤ (placeImage cfg w h).y ∧
      (placeImage cfg w h).x + ((placeImage cfg w h).w : Int) ≤ (cfg.screenW : Int) ∧
      (placeImage cfg w h).y + ((placeImage cfg w h).h : Int) ≤ (cfg.screenH : Int) := by
  rcases lt_trichotomy (cfg.screenW * h) (w * cfg.screenH) with hlt | heq | hgt
  · rw [placeImage_widthBound cfg w h hs hH hh hlt]
    have hdiv : cfg.screenW * h / w < cfg.screenH := by
      rw [Nat.div_lt_iff_lt_mul hw]
      calc cfg.screenW * h < w * cfg.screenH := hlt
        _ = cfg.screenH * w := Nat.mul_comm _ _
    have hdivInt : ((cfg.screenW * h / w : Nat) : Int) ≤ (cfg.screenH : Int) := by
      exact_mod_cast Nat.le_of_lt hdiv
    refine ⟨le_refl 0, ?_, by dsimp only; omega, ?_⟩
    · dsimp only
      split
      · exact Int.fdiv_nonneg (by omega) (by norm_num)
      · exact le_refl 0
    · dsimp only
      split
      · have hle : ((cfg.screenH : Int) - ((cfg.screenW * h / w : Nat) : Int)).fdiv 2
            ≤ (cfg.screenH : Int) - ((cfg.screenW * h / w : Nat) : Int) := by
          rw [Int.fdiv_eq_ediv _ (by norm_num)]
          exact Int.ediv_le_self _ (by omega)
        omega
      · omega
  · rw [placeImage_equalAspect cfg w h hs hH hh heq]
    exact ⟨le_refl 0, le_refl 0, by dsimp only; omega, by dsimp only; omega⟩
  · rw [placeImage_heightBound cfg w h hs hH hh hgt]
    have hdiv : cfg.screenH * w / h < cfg.screenW := by
      rw [Nat.div_lt_iff_lt_mul hh]
      calc cfg.screenH * w = w * cfg.screenH := Nat.mul_comm _ _
        _ < cfg.screenW * h := hgt
    have hdivInt : ((cfg.screenH * w / h : Nat) : Int) ≤ (cfg.screenW : Int) := by
      exact_mod_cast Nat.le_of_lt hdiv
    refine ⟨?_, le_refl 0, ?_, by dsimp only; omega⟩
    · dsimp only
      split
      · exact Int.fdiv_nonneg (by omega) (by norm_num)
      · exact le_refl 0
    · dsimp only
      split
      · have hle : ((cfg.screenW : Int) - ((cfg.screenH * w / h : Nat) : Int)).fdiv 2
            ≤ (cfg.screenW : Int) - ((cfg.screenH * w / h : Nat) : Int) := by
          rw [Int.fdiv_eq_ediv _ (by norm_num)]
          exact Int.ediv_le_self _ (by omega)
        omega
      · omega

/-- Witness for C5 (amended) at a concrete input: a 1000×500 image on the
scaled, centered 800×600 configuration is fully visible. -/
theorem placeImage_no_crop_witness :
    0 ≤ (placeImage cfgEx 1000 500).x ∧ 0 ≤ (placeImage cfgEx 1000 500).y ∧
      (placeImage cfgEx 1000 500).x + ((placeImage cfgEx 1000 500).w : Int)
          ≤ (cfgEx.screenW : Int) ∧
      (placeImage cfgEx 1000 500).y + ((placeImage cfgEx 1000 500).h : Int)
          ≤ (cfgEx.screenH : Int) :=
  placeImage_no_crop cfgEx 1000 500 rfl (by decide) (by decide) (by decide) (by decide)
